import Mathlib

/-!
Verification of the `baptist` camelCase→kebab-case renaming tool.

JavaScript strings are modelled as Lean `String`s (lists of characters); the
ASCII-range case operations of the source (`[a-z]`, `[A-Z]`, `[0-9]` regex
classes and `toLowerCase` on identifier characters) are modelled with the
corresponding ASCII operations `Char.isLower`, `Char.isUpper`, `Char.isDigit`,
`Char.toLower`.
-/

namespace Baptist

/-! ## NameConverter: `camelCaseToKebabCase` (src/utils/helpers.ts) -/

/-- Character class `[a-z0-9]` of the first regex. -/
def lowerOrDigit (c : Char) : Bool := c.isLower || c.isDigit

/-- One global pass of `.replaceAll(/([a-z0-9])([A-Z])/g, '$1-$2')`:
scan left to right; when a `[a-z0-9]` character is immediately followed by an
`[A-Z]` character, keep both and insert `'-'` between them, then continue
after the matched pair (non-overlapping global matches). -/
def pass1 : List Char → List Char
  | [] => []
  | [c] => [c]
  | c₁ :: c₂ :: rest =>
    if lowerOrDigit c₁ && c₂.isUpper then
      c₁ :: '-' :: c₂ :: pass1 rest
    else
      c₁ :: pass1 (c₂ :: rest)

/-- One global pass of `.replaceAll(/([A-Z])([A-Z][a-z])/g, '$1-$2')`:
when an `[A-Z]` character is followed by `[A-Z][a-z]`, insert `'-'` after the
first character and continue after the three matched characters. -/
def pass2 : List Char → List Char
  | [] => []
  | [c] => [c]
  | [c₁, c₂] => [c₁, c₂]
  | c₁ :: c₂ :: c₃ :: rest =>
    if c₁.isUpper && c₂.isUpper && c₃.isLower then
      c₁ :: '-' :: c₂ :: c₃ :: pass2 rest
    else
      c₁ :: pass2 (c₂ :: c₃ :: rest)

/-- `camelCaseToKebabCase` from src/utils/helpers.ts, on the character list:
empty input → empty; single character → lowercased; a string that contains a
hyphen and equals its own lowercasing is returned as-is; otherwise the two
regex passes followed by `toLowerCase`. -/
def camelCaseToKebabCaseL (l : List Char) : List Char :=
  if l = [] then []
  else if l.length = 1 then l.map Char.toLower
  else if '-' ∈ l ∧ l = l.map Char.toLower then l
  else (pass2 (pass1 l)).map Char.toLower

/-- `camelCaseToKebabCase` on `String`. -/
def camelCaseToKebabCase (s : String) : String :=
  ⟨camelCaseToKebabCaseL s.data⟩

/-! ## Data model and path utilities -/

/-- `FileSystemItem` from src/utils/file-scanner.ts. -/
structure FileSystemItem where
  originalPath : String
  newPath : String
  isDirectory : Bool
  needsRename : Bool
deriving DecidableEq, Repr

/-- JavaScript `String.prototype.split('/')`: split a character list at every
`'/'`; the empty string splits to one empty segment, separators at the ends
produce empty segments. -/
def splitSeg : List Char → List (List Char)
  | [] => [[]]
  | c :: rest =>
    if c = '/' then [] :: splitSeg rest
    else
      match splitSeg rest with
      | [] => [[c]]
      | s :: ss => (c :: s) :: ss

/-- `path.split('/').length`, the depth measure both sort comparators use
(`path.sep` is `'/'` on POSIX). -/
def pathDepth (p : String) : Nat := (splitSeg p.data).length

/-- JavaScript `String.prototype.toLowerCase()` on ASCII letters. -/
def strToLower (s : String) : String := ⟨s.data.map Char.toLower⟩

/-- Insert `a` into `l` after every element `b` with `le b a`: the insertion
step of a stable sort whose boolean `le b a` means "the comparator allows `b`
to stay before `a`" (comparator value `≤ 0` on `(b, a)`). -/
def insertAfterLe (le : α → α → Bool) (a : α) : List α → List α
  | [] => [a]
  | b :: bs => if le b a then b :: insertAfterLe le a bs else a :: b :: bs

/-- Stable sort by a total-preorder comparator, modelling JavaScript
`Array.prototype.sort` (stable per ECMAScript 2019; with a consistent
comparator the stable-sorted permutation is unique, so any stable algorithm
yields the engine's result). Each later element is inserted after the equal
elements already placed. -/
def stableSortBy (le : α → α → Bool) (l : List α) : List α :=
  l.foldl (fun acc x => insertAfterLe le x acc) []

/-- The comparator of `generateMoveCommands` (src/utils/file-scanner.ts,
lines 281–290), as the relation "comparator(a, b) ≤ 0": directories before
files, then deeper `originalPath` first (`bDepth - aDepth`) for directories
and files alike. -/
def moveCmpLe (a b : FileSystemItem) : Bool :=
  if a.isDirectory && !b.isDirectory then true
  else if !a.isDirectory && b.isDirectory then false
  else pathDepth b.originalPath ≤ pathDepth a.originalPath

/-- The comparator of `sortItemsForSafeRenaming` (src/utils/helpers.ts,
lines 61–79), as the relation "comparator(a, b) ≤ 0": directories before
files; among directories ascending depth (`aDepth - bDepth`, parents first);
among files descending depth. -/
def safeCmpLe (a b : FileSystemItem) : Bool :=
  if a.isDirectory && !b.isDirectory then true
  else if !a.isDirectory && b.isDirectory then false
  else if a.isDirectory && b.isDirectory then
    pathDepth a.originalPath ≤ pathDepth b.originalPath
  else pathDepth b.originalPath ≤ pathDepth a.originalPath

/-- `sortItemsForSafeRenaming` from src/utils/helpers.ts. -/
def sortItemsForSafeRenaming (items : List FileSystemItem) : List FileSystemItem :=
  stableSortBy safeCmpLe items

/-- The shell words `mv "src" "dst"` pushed by `generateMoveCommands`. -/
def mkMv (src dst : String) : String :=
  "mv \"" ++ src ++ "\" \"" ++ dst ++ "\""

/-- `generateMoveCommands` from src/utils/file-scanner.ts: sort all items by
`moveCmpLe`, then for each item with `needsRename`, push two commands through
`newPath + ".temp-rename"` when `originalPath.toLowerCase() ===
newPath.toLowerCase()`, else one direct `mv` command. -/
def generateMoveCommands (items : List FileSystemItem) : List String :=
  let sortedItems := stableSortBy moveCmpLe items
  sortedItems.foldl
    (fun commands item =>
      if item.needsRename then
        if strToLower item.originalPath = strToLower item.newPath then
          let temporaryPath := item.newPath ++ ".temp-rename"
          commands ++ [mkMv item.originalPath temporaryPath, mkMv temporaryPath item.newPath]
        else
          commands ++ [mkMv item.originalPath item.newPath]
      else commands)
    []

/-- The command block a single `needsRename` item contributes, per the
(amended) planner specification: two commands through the temporary suffix
when the two paths agree case-insensitively, one direct move otherwise. -/
def planItemCommands (item : FileSystemItem) : List String :=
  if strToLower item.originalPath = strToLower item.newPath then
    [mkMv item.originalPath (item.newPath ++ ".temp-rename"),
     mkMv (item.newPath ++ ".temp-rename") item.newPath]
  else
    [mkMv item.originalPath item.newPath]

/-! ## Ignore predicates of the two directory walks -/

/-- JavaScript `s.startsWith(pre)`. -/
def jsStartsWith (pre s : String) : Bool := pre.data.isPrefixOf s.data

/-- Unanchored regex-literal test: does `pat` occur as a contiguous substring
of `s`? (An ECMAScript regex with no anchors, such as `/dist/`, tests for a
substring occurrence anywhere.) -/
def containsSub (pat : List Char) : List Char → Bool
  | [] => pat.isEmpty
  | c :: rest => pat.isPrefixOf (c :: rest) || containsSub pat rest

/-- `path.basename` (POSIX) for non-root paths: strip trailing slashes, then
take the final `'/'`-separated segment. -/
def basename (s : String) : String :=
  ⟨((s.data.reverse.dropWhile (· = '/')).takeWhile (· ≠ '/')).reverse⟩

/-- The `SKIP_PATTERNS` regex tests of src/utils/file-scanner.ts, lines
168–176, applied to a base name: `/^\./` is an anchored dot-prefix test, the
other six patterns are unanchored substring tests. -/
def skipPatternTests : List (String → Bool) :=
  [fun n => jsStartsWith "." n,
   fun n => containsSub "node_modules".data n.data,
   fun n => containsSub ".git".data n.data,
   fun n => containsSub "dist".data n.data,
   fun n => containsSub "build".data n.data,
   fun n => containsSub "coverage".data n.data,
   fun n => containsSub ".nyc_output".data n.data]

/-- `shouldSkip` from src/utils/file-scanner.ts: test every `SKIP_PATTERNS`
regex against the path's base name. -/
def shouldSkip (itemPath : String) : Bool :=
  skipPatternTests.any (fun t => t (basename itemPath))

/-- The inline directory-skip condition of `getAllFilesRecursively`
(src/utils/import-updater.ts, lines 130–138): skip a directory entry whose
name starts with `'.'` or equals `node_modules`, `dist` or `build`. -/
def reWalkSkipDir (directoryName : String) : Bool :=
  jsStartsWith "." directoryName || directoryName = "node_modules" ||
    directoryName = "dist" || directoryName = "build"

/-! ## ImportRewriter: `convertImportPathToKebabCase`
(src/utils/import-updater.ts, lines 64–89) -/

/-- Index of the last `'.'` in a character list, if any. -/
def lastDotIdx : List Char → Option Nat
  | [] => none
  | c :: rest =>
    match lastDotIdx rest with
    | some i => some (i + 1)
    | none => if c = '.' then some 0 else none

/-- `path.extname` (POSIX) on a single path segment (no `'/'` inside): the
substring from the last `'.'` to the end, except that a name whose only dot
is its first character (a dotfile such as `.bashrc`), the name `..`, and a
dotless name have no extension. -/
def extnameSeg (l : List Char) : List Char :=
  if l = ['.', '.'] then []
  else
    match lastDotIdx l with
    | none => []
    | some 0 => []
    | some d => l.drop d

/-- The segment-mapping body of `convertImportPathToKebabCase`: keep `.`,
`..` and empty segments; convert only the name portion before the extension
(`path.basename(part, extension)`) when `path.extname(part)` is non-empty;
convert the whole segment otherwise. -/
def convertSegment (part : List Char) : List Char :=
  if part = ['.'] ∨ part = ['.', '.'] ∨ part = [] then part
  else if extnameSeg part = [] then camelCaseToKebabCaseL part
  else
    camelCaseToKebabCaseL (part.take (part.length - (extnameSeg part).length)) ++
      extnameSeg part

/-- JavaScript `Array.prototype.join('/')` on character-list segments. -/
def joinSeg : List (List Char) → List Char
  | [] => []
  | [s] => s
  | s :: ss => s ++ '/' :: joinSeg ss

/-- `convertImportPathToKebabCase` from src/utils/import-updater.ts: leave
specifiers that do not start with `'.'` or `'/'` untouched; otherwise split
on `'/'`, convert each segment, and rejoin with `'/'`. -/
def convertImportPathToKebabCase (importPath : String) : String :=
  if ¬ jsStartsWith "." importPath ∧ ¬ jsStartsWith "/" importPath then importPath
  else ⟨joinSeg ((splitSeg importPath.data).map convertSegment)⟩

/-! ## Filesystem model -/

/-- A filesystem entry: a file with text content, or a directory with its
entries in `readdirSync` order. -/
inductive FsEntry where
  | file (name : String) (content : String)
  | dir (name : String) (entries : List FsEntry)

/-- `path.join(basePath, name)` for a non-empty, already-normalized base and
a plain entry name. -/
def pathJoin (basePath name : String) : String :=
  if basePath = "" then name else basePath ++ "/" ++ name

/-! ## TreeScanner: `scanDirectories` (src/utils/file-scanner.ts) -/

/-- The two failure kinds of the scan: the code raises an error reading
`Directory does not exist: <p>` respectively `Path is not a directory: <p>`
(the spec's `NotFoundError` / `NotADirectoryError`). -/
inductive ScanError where
  | notFound (path : String)
  | notADirectory (path : String)
deriving DecidableEq, Repr

/-- `ScanResult` from src/utils/file-scanner.ts. -/
structure ScanResult where
  items : List FileSystemItem
  totalItems : Nat
deriving DecidableEq, Repr

mutual

/-- One entry of the walk of `scanDirectoryRecursive`: skip when
`shouldSkip` matches the entry name (the code tests the full path, whose
base name is the entry name); a kept directory yields an item whose
`newPath` uses the converted name, followed by the recursive scan rooted at
the *converted* relative path; a kept file yields one item converting only
the name before the `path.extname` extension. -/
def scanEntry : FsEntry → String → List FileSystemItem
  | .dir name subEntries, basePath =>
    if shouldSkip name then []
    else
      let newDirectoryName := camelCaseToKebabCase name
      let newRelativePath := pathJoin basePath newDirectoryName
      { originalPath := pathJoin basePath name, newPath := newRelativePath,
        isDirectory := true, needsRename := name ≠ newDirectoryName } ::
        scanDirectoryRecursive subEntries newRelativePath
  | .file name _, basePath =>
    if shouldSkip name then []
    else
      let extension : String := ⟨extnameSeg name.data⟩
      let fileName : String := ⟨name.data.take (name.data.length - extension.length)⟩
      let newFileName := camelCaseToKebabCase fileName
      [{ originalPath := pathJoin basePath name,
         newPath := pathJoin basePath (newFileName ++ extension),
         isDirectory := false,
         needsRename := name ≠ newFileName ++ extension }]

/-- `scanDirectoryRecursive` from src/utils/file-scanner.ts: concatenate the
items of the directory's entries in `readdirSync` order. -/
def scanDirectoryRecursive : List FsEntry → String → List FileSystemItem
  | [], _ => []
  | entry :: rest, basePath =>
    scanEntry entry basePath ++ scanDirectoryRecursive rest basePath

end

/-- What the filesystem holds at a requested root path: nothing (the root
does not exist), or a single entry. -/
abbrev RootSpec := String × Option FsEntry

/-- Accumulation loop of `scanDirectories`: check each root in order —
missing root → `NotFoundError`, non-directory root → `NotADirectoryError` —
and concatenate the recursive scans. -/
def scanRoots : List RootSpec → Except ScanError (List FileSystemItem)
  | [] => .ok []
  | (p, none) :: _ => .error (.notFound p)
  | (p, some (.file _ _)) :: _ => .error (.notADirectory p)
  | (p, some (.dir _ entries)) :: rest =>
    (scanRoots rest).map (fun items => scanDirectoryRecursive entries p ++ items)

/-- `scanDirectories` from src/utils/file-scanner.ts: scan every root and
return all items together with `totalItems = allItems.length`. -/
def scanDirectories (roots : List RootSpec) : Except ScanError ScanResult :=
  (scanRoots roots).map (fun allItems => ⟨allItems, allItems.length⟩)

/-- Does the root pass both checks (`existsSync` and `isDirectory`)? -/
def rootOk : RootSpec → Bool
  | (_, some (.dir _ _)) => true
  | _ => false

/-! ## RenameExecutor: `executeGitMoveCommands` (src/utils/git.ts) -/

/-- Diagnostic fields of a failed `execSync` invocation. -/
structure ExecFailure where
  stderr : Option String
  stdout : Option String
  status : Option Int
  signal : Option String
deriving DecidableEq, Repr

/-- Result of one external move invocation (the `execSync` collaborator;
the working directory is part of the oracle). -/
inductive ExecResult where
  | ok (output : String)
  | err (f : ExecFailure)
deriving DecidableEq, Repr

/-- JavaScript `String.prototype.trim()` on ASCII whitespace. -/
def jsTrim (s : String) : String :=
  ⟨((s.data.dropWhile Char.isWhitespace).reverse.dropWhile Char.isWhitespace).reverse⟩

/-- The command actually run: `git ${cmd}` when the version-control move is
requested, the plain command otherwise. -/
def fullCmd (prefixGit : Bool) (cmd : String) : String :=
  if prefixGit then "git " ++ cmd else cmd

/-- `Stderr` fragment of the error message: appended only when stderr is
present and truthy (non-empty), carrying the trimmed text. -/
def stderrPart (f : ExecFailure) : String :=
  match f.stderr with
  | some s => if s = "" then "" else "\nStderr: " ++ jsTrim s
  | none => ""

/-- `Stdout` fragment, same shape as `stderrPart`. -/
def stdoutPart (f : ExecFailure) : String :=
  match f.stdout with
  | some s => if s = "" then "" else "\nStdout: " ++ jsTrim s
  | none => ""

/-- `Exit code` fragment: appended whenever a status is present
(`error.status !== undefined`, so exit code 0 would be included). -/
def statusPart (f : ExecFailure) : String :=
  match f.status with
  | some n => "\nExit code: " ++ toString n
  | none => ""

/-- `Signal` fragment: appended when a (truthy) signal is present. -/
def signalPart (f : ExecFailure) : String :=
  match f.signal with
  | some s => if s = "" then "" else "\nSignal: " ++ s
  | none => ""

/-- The enhanced message of the error thrown on first failure
(src/utils/git.ts, lines 117–138). -/
def mkErrorMessage (fullCommand : String) (f : ExecFailure) : String :=
  "Command failed: " ++ fullCommand ++ stderrPart f ++ stdoutPart f ++
    statusPart f ++ signalPart f

/-- Observable behaviour of one executor run. -/
structure ExecRun where
  attempted : List String
  logged : List String
  error : Option String
deriving DecidableEq, Repr

/-- `executeGitMoveCommands` from src/utils/git.ts: run the commands in order
through the external move primitive; log non-empty trimmed output of a
success; on the first failure throw the enhanced error and stop (commands
after it are never attempted). -/
def executeGitMoveCommands (exec : String → ExecResult) (commands : List String)
    (prefixGit : Bool) : ExecRun :=
  match commands with
  | [] => ⟨[], [], none⟩
  | cmd :: rest =>
    let fc := fullCmd prefixGit cmd
    match exec fc with
    | .ok output =>
      let r := executeGitMoveCommands exec rest prefixGit
      ⟨fc :: r.attempted,
        (if jsTrim output = "" then [] else [jsTrim output]) ++ r.logged, r.error⟩
    | .err f => ⟨[fc], [], some (mkErrorMessage fc f)⟩

/-- `sub` occurs as a contiguous substring of `s`. -/
def strContains (s sub : String) : Prop := sub.data <:+: s.data

/-- A concrete move oracle: one command that succeeds, everything else
fails with full diagnostics. -/
def sampleExec : String → ExecResult := fun cmd =>
  if cmd = "git mv \"A\" \"B\"" then .ok " done "
  else .err ⟨some " boom ", some "out", some 128, some "SIGTERM"⟩

/-! ## ImportRewriter: regex matching and per-file rewriting
(src/utils/import-updater.ts, lines 14–59 and 94–147) -/

/-- ECMAScript `\s`: whitespace and line terminators. -/
def jsWs (c : Char) : Bool :=
  c = ' ' || c = '\t' || c = '\n' || c = '\r' || c.toNat = 11 || c.toNat = 12 ||
    c.toNat = 0xa0 || c.toNat = 0x1680 ||
    (0x2000 ≤ c.toNat && c.toNat ≤ 0x200a) || c.toNat = 0x2028 ||
    c.toNat = 0x2029 || c.toNat = 0x202f || c.toNat = 0x205f ||
    c.toNat = 0x3000 || c.toNat = 0xfeff

/-- ECMAScript `.` without the `s` flag: any character except a line
terminator. -/
def jsDot (c : Char) : Bool :=
  !(c = '\n' || c = '\r' || c.toNat = 0x2028 || c.toNat = 0x2029)

/-- The character class `['"]`. -/
def isQuote (c : Char) : Bool := c = '\'' || c = '"'

/-- The character class `[^'"]`. -/
def isNotQuote (c : Char) : Bool := !(isQuote c)

/-- One element of a linear (alternation-free) regex: a literal, a
single-character class, greedy `*` and `+` over a class, lazy `*?` over a
class, and the one capturing group `([^'"]+)` (a greedy class `+`). -/
inductive Tok where
  | lit (s : List Char)
  | cls (p : Char → Bool)
  | star (p : Char → Bool)
  | plus (p : Char → Bool)
  | lazyStar (p : Char → Bool)
  | group (p : Char → Bool)

/-- Candidate lengths `m, m-1, …, 1` for a greedy `+` over a class with a
maximal run of `m`. -/
def descTo1 (m : Nat) : List Nat := (List.range m).map (fun i => m - i)

/-- Candidate lengths `m, m-1, …, 0` for a greedy `*`. -/
def descTo0 (m : Nat) : List Nat := (List.range (m + 1)).map (fun i => m - i)

/-- Backtracking matcher for a linear regex anchored at the start of
`input`, following ECMAScript order: a greedy quantifier tries its longest
viable run first, a lazy one its shortest, earlier quantifiers varying
outermost. Returns the matched length and the text of the capturing group. -/
def runToks : List Tok → List Char → Option (Nat × List Char)
  | [], _ => some (0, [])
  | .lit s :: rest, input =>
    if s.isPrefixOf input then
      (runToks rest (input.drop s.length)).map (fun r => (s.length + r.1, r.2))
    else none
  | .cls p :: rest, input =>
    match input with
    | [] => none
    | c :: input' =>
      if p c then (runToks rest input').map (fun r => (r.1 + 1, r.2)) else none
  | .star p :: rest, input =>
    (descTo0 (input.takeWhile p).length).findSome? fun k =>
      (runToks rest (input.drop k)).map (fun r => (k + r.1, r.2))
  | .plus p :: rest, input =>
    (descTo1 (input.takeWhile p).length).findSome? fun k =>
      (runToks rest (input.drop k)).map (fun r => (k + r.1, r.2))
  | .lazyStar p :: rest, input =>
    (List.range ((input.takeWhile p).length + 1)).findSome? fun k =>
      (runToks rest (input.drop k)).map (fun r => (k + r.1, r.2))
  | .group p :: rest, input =>
    (descTo1 (input.takeWhile p).length).findSome? fun k =>
      (runToks rest (input.drop k)).map (fun r => (k + r.1, input.take k))

/-- `/import\s+.*?\s+from\s+['"]([^'"]+)['"]/g` as a token list. -/
def importFromPattern : List Tok :=
  [.lit "import".data, .plus jsWs, .lazyStar jsDot, .plus jsWs,
   .lit "from".data, .plus jsWs, .cls isQuote, .group isNotQuote, .cls isQuote]

/-- `/require\s*\(\s*['"]([^'"]+)['"]\s*\)/g` as a token list. -/
def requirePattern : List Tok :=
  [.lit "require".data, .star jsWs, .lit "(".data, .star jsWs, .cls isQuote,
   .group isNotQuote, .cls isQuote, .star jsWs, .lit ")".data]

/-- `/import\s*\(\s*['"]([^'"]+)['"]\s*\)/g` as a token list. -/
def dynamicImportPattern : List Tok :=
  [.lit "import".data, .star jsWs, .lit "(".data, .star jsWs, .cls isQuote,
   .group isNotQuote, .cls isQuote, .star jsWs, .lit ")".data]

/-- JavaScript `s.replace(pat, repl)` with a plain-string pattern: replace
the first occurrence of `pat` (here always a non-empty captured specifier,
so replacement-pattern expansion never applies). -/
def replaceFirstSub (pat repl : List Char) : List Char → List Char
  | [] => if pat.isPrefixOf ([] : List Char) then repl else []
  | c :: rest =>
    if pat.isPrefixOf (c :: rest) then repl ++ (c :: rest).drop pat.length
    else c :: replaceFirstSub pat repl rest

/-- One global `content.replace(pattern, cb)` pass with the callback of
`updateImportsInFile`: scan left to right; at a match of length `n` with
captured specifier `g`, emit the match unchanged when the conversion fixes
`g`, else emit the match with its first occurrence of `g` replaced and raise
the change flag, continuing after the match either way. The fuel is the
input length (every step consumes at least one character; the patterns
cannot match the empty string since each starts with a non-empty literal,
and a zero-length match is treated as no match). -/
def replaceLoop (toks : List Tok) : Nat → List Char → List Char × Bool
  | 0, s => (s, false)
  | fuel + 1, s =>
    match s with
    | [] => ([], false)
    | c :: rest =>
      match runToks toks s with
      | none =>
        let r := replaceLoop toks fuel rest
        (c :: r.1, r.2)
      | some (n, g) =>
        if n = 0 then
          let r := replaceLoop toks fuel rest
          (c :: r.1, r.2)
        else
          let importPath : String := ⟨g⟩
          let kebabImportPath := convertImportPathToKebabCase importPath
          if kebabImportPath = importPath then
            let r := replaceLoop toks fuel (s.drop n)
            (s.take n ++ r.1, r.2)
          else
            let r := replaceLoop toks fuel (s.drop n)
            (replaceFirstSub importPath.data kebabImportPath.data (s.take n) ++ r.1,
              true)

/-- One pattern pass over a file's content. -/
def replacePass (toks : List Tok) (s : List Char) : List Char × Bool :=
  replaceLoop toks s.length s

/-- The captured specifiers of the same scan, in match order. -/
def specsLoop (toks : List Tok) : Nat → List Char → List String
  | 0, _ => []
  | fuel + 1, s =>
    match s with
    | [] => []
    | _ :: rest =>
      match runToks toks s with
      | none => specsLoop toks fuel rest
      | some (n, g) =>
        if n = 0 then specsLoop toks fuel rest
        else (⟨g⟩ : String) :: specsLoop toks fuel (s.drop n)

/-- All specifiers matched by one pattern in one pass over `s`. -/
def matchedSpecs (toks : List Tok) (s : List Char) : List String :=
  specsLoop toks s.length s

/-- `IMPORT_FILE_EXTENSIONS` from src/utils/import-updater.ts. -/
def IMPORT_FILE_EXTENSIONS : List String :=
  [".js", ".jsx", ".ts", ".tsx", ".mjs", ".cjs", ".vue", ".svelte"]

/-- `path.extname` on a full path: the extension of the portion after the
last `'/'`. -/
def extnamePath (p : String) : String :=
  ⟨extnameSeg ((p.data.reverse.takeWhile (· ≠ '/')).reverse)⟩

/-- The three passes of `updateImportsInFile` applied in the order of
`IMPORT_PATTERNS` (ES-module `from`, `require`, dynamic `import`), threading
the content and OR-ing the shared `hasChanges` flag. -/
def processContent (content : String) : String × Bool :=
  let r1 := replacePass importFromPattern content.data
  let r2 := replacePass requirePattern r1.1
  let r3 := replacePass dynamicImportPattern r2.1
  (⟨r3.1⟩, r1.2 || r2.2 || r3.2)

/-- Every specifier matched during the three sequential passes. -/
def allMatchedSpecs (content : String) : List String :=
  let r1 := replacePass importFromPattern content.data
  let r2 := replacePass requirePattern r1.1
  matchedSpecs importFromPattern content.data ++
    matchedSpecs requirePattern r1.1 ++
    matchedSpecs dynamicImportPattern r2.1

/-- `updateImportsInFile` from src/utils/import-updater.ts on a file that
exists with the given content: skip files whose extension is not in
`IMPORT_FILE_EXTENSIONS`; otherwise run the three passes and write the new
content back only when the flag was raised — the on-disk content stays the
original otherwise. Returns (resulting on-disk content, was updated). -/
def updateImportsInFile (filePath : String) (content : String) : String × Bool :=
  if extnamePath filePath ∈ IMPORT_FILE_EXTENSIONS then
    let r := processContent content
    if r.2 then (r.1, true) else (content, false)
  else (content, false)

mutual

/-- One entry of the re-walk of `getAllFilesRecursively`
(src/utils/import-updater.ts, lines 115–147): skip directories matching the
inline ignore condition, recurse into the others, collect every file with
its path and content. -/
def walkEntry : FsEntry → String → List (String × String)
  | .dir name sub, directoryPath =>
    if reWalkSkipDir name then []
    else walkEntries sub (pathJoin directoryPath name)
  | .file name content, directoryPath => [(pathJoin directoryPath name, content)]

/-- The re-walk over a directory's entries in `readdirSync` order. -/
def walkEntries : List FsEntry → String → List (String × String)
  | [], _ => []
  | e :: rest, directoryPath =>
    walkEntry e directoryPath ++ walkEntries rest directoryPath

end

/-- The per-file loop of `updateImportsInFiles`: process each walked file,
producing the resulting on-disk contents and pushing the path of every file
whose update returned true. -/
def processFiles : List (String × String) → List (String × String) × List String
  | [] => ([], [])
  | (p, content) :: rest =>
    let r := updateImportsInFile p content
    let rec' := processFiles rest
    ((p, r.1) :: rec'.1, if r.2 then p :: rec'.2 else rec'.2)

/-- `updateImportsInFiles` from src/utils/import-updater.ts: re-walk every
root directory, update each collected file, and return the resulting
filesystem contents together with the list of file paths actually updated. -/
def updateImportsInFiles (roots : List (String × List FsEntry)) :
    List (String × String) × List String :=
  processFiles (roots.flatMap (fun r => walkEntries r.2 r.1))

/-! ## Helper theorems -/

/-! ### Character-level facts about ASCII lowercasing -/

theorem char_toNat_ofNat_valid {n : Nat} (h : n.isValidChar) :
    (Char.ofNat n).toNat = n := by
  simp [Char.ofNat, dif_pos h, Char.ofNatAux, Char.toNat, UInt32.toNat]

theorem char_isUpper_iff (c : Char) :
    c.isUpper = true ↔ 65 ≤ c.toNat ∧ c.toNat ≤ 90 := by
  simp [Char.isUpper, UInt32.le_def, BitVec.le_def, Char.toNat, UInt32.toNat]

theorem char_toLower_toNat_of_upper {c : Char} (h : c.isUpper = true) :
    c.toLower.toNat = c.toNat + 32 := by
  obtain ⟨h1, h2⟩ := (char_isUpper_iff c).mp h
  have hv : (c.toNat + 32).isValidChar := Or.inl (by omega)
  rw [Char.toLower, if_pos ⟨h1, h2⟩]
  exact char_toNat_ofNat_valid hv

theorem char_toLower_eq_of_not_upper {c : Char} (h : c.isUpper = false) :
    c.toLower = c := by
  have : ¬ (65 ≤ c.toNat ∧ c.toNat ≤ 90) := by
    intro hc
    simp [(char_isUpper_iff c).mpr hc] at h
  rw [Char.toLower, if_neg this]

theorem char_isUpper_toLower (c : Char) : c.toLower.isUpper = false := by
  by_cases h : c.isUpper = true
  · obtain ⟨h1, h2⟩ := (char_isUpper_iff c).mp h
    have hn := char_toLower_toNat_of_upper h
    by_contra hu
    rw [Bool.not_eq_false] at hu
    obtain ⟨hu1, hu2⟩ := (char_isUpper_iff _).mp hu
    omega
  · rw [Bool.not_eq_true] at h
    rw [char_toLower_eq_of_not_upper h]
    exact h

theorem char_toLower_idem (c : Char) : c.toLower.toLower = c.toLower :=
  char_toLower_eq_of_not_upper (char_isUpper_toLower c)

theorem char_isUpper_false_of_toLower_fixed {c : Char} (h : c.toLower = c) :
    c.isUpper = false := by
  by_contra hu
  rw [Bool.not_eq_false] at hu
  have := char_toLower_toNat_of_upper hu
  rw [h] at this
  omega

/-! ### The regex passes are the identity on strings without uppercase -/

theorem pass1_id_of_no_upper :
    ∀ l : List Char, (∀ c ∈ l, c.isUpper = false) → pass1 l = l := by
  intro l
  induction l using pass1.induct with
  | case1 => intro; rfl
  | case2 c => intro; rfl
  | case3 c₁ c₂ rest hcond ih =>
    intro h
    have : c₂.isUpper = false := h c₂ (by simp)
    simp [this] at hcond
  | case4 c₁ c₂ rest hcond ih =>
    intro h
    rw [pass1, if_neg hcond, ih (fun c hc => h c (List.mem_cons_of_mem _ hc))]

theorem pass2_id_of_no_upper :
    ∀ l : List Char, (∀ c ∈ l, c.isUpper = false) → pass2 l = l := by
  intro l
  induction l using pass2.induct with
  | case1 => intro; rfl
  | case2 c => intro; rfl
  | case3 c₁ c₂ => intro; rfl
  | case4 c₁ c₂ c₃ rest hcond ih =>
    intro h
    have : c₁.isUpper = false := h c₁ (by simp)
    simp [this] at hcond
  | case5 c₁ c₂ c₃ rest hcond ih =>
    intro h
    rw [pass2, if_neg hcond, ih (fun c hc => h c (List.mem_cons_of_mem _ hc))]

theorem no_upper_of_map_toLower_fixed {l : List Char} (h : l.map Char.toLower = l) :
    ∀ c ∈ l, c.isUpper = false := by
  intro c hc
  induction l with
  | nil => cases hc
  | cons a as ih =>
    rw [List.map_cons, List.cons.injEq] at h
    rcases List.mem_cons.mp hc with rfl | hmem
    · exact char_isUpper_false_of_toLower_fixed h.1
    · exact ih h.2 hmem

/-! ### The converter's output is fixed under lowercasing -/

theorem camelL_map_toLower_fixed (l : List Char) :
    (camelCaseToKebabCaseL l).map Char.toLower = camelCaseToKebabCaseL l := by
  unfold camelCaseToKebabCaseL
  split_ifs with h1 h2 h3
  · rfl
  · rw [List.map_map]
    congr 1
    funext c
    exact char_toLower_idem c
  · exact h3.2.symm
  · rw [List.map_map]
    congr 1
    funext c
    exact char_toLower_idem c

theorem camelL_idem (l : List Char) :
    camelCaseToKebabCaseL (camelCaseToKebabCaseL l) = camelCaseToKebabCaseL l := by
  set r := camelCaseToKebabCaseL l with hr
  have hfix : r.map Char.toLower = r := camelL_map_toLower_fixed l
  have hnoup : ∀ c ∈ r, c.isUpper = false := no_upper_of_map_toLower_fixed hfix
  unfold camelCaseToKebabCaseL
  split_ifs with h1 h2 h3
  · exact h1.symm
  · exact hfix
  · rfl
  · rw [pass1_id_of_no_upper r hnoup, pass2_id_of_no_upper r hnoup, hfix]

theorem map_toLower_fixed_of_no_upper {l : List Char}
    (h : ∀ c ∈ l, c.isUpper = false) : l.map Char.toLower = l := by
  induction l with
  | nil => rfl
  | cons a as ih =>
    rw [List.map_cons, char_toLower_eq_of_not_upper (h a (by simp)),
      ih (fun c hc => h c (List.mem_cons_of_mem _ hc))]

theorem foldl_append_eq_flatMap (step : FileSystemItem → List String) :
    ∀ (l : List FileSystemItem) (acc : List String),
      l.foldl (fun cs it => cs ++ step it) acc = acc ++ l.flatMap step := by
  intro l
  induction l with
  | nil => intro acc; simp
  | cons a as ih =>
    intro acc
    rw [List.foldl_cons, ih, List.flatMap_cons, List.append_assoc]

/-- The emission loop of `generateMoveCommands` equals the per-item command
blocks of the `needsRename` items, concatenated in sorted order. -/
theorem generateMoveCommands_eq (items : List FileSystemItem) :
    generateMoveCommands items =
      ((stableSortBy moveCmpLe items).filter (·.needsRename)).flatMap
        planItemCommands := by
  unfold generateMoveCommands
  have hstep :
      (fun commands item =>
        if item.needsRename then
          if strToLower item.originalPath = strToLower item.newPath then
            let temporaryPath := item.newPath ++ ".temp-rename"
            commands ++
              [mkMv item.originalPath temporaryPath, mkMv temporaryPath item.newPath]
          else commands ++ [mkMv item.originalPath item.newPath]
        else commands) =
      (fun (cs : List String) (it : FileSystemItem) =>
        cs ++ (if it.needsRename then planItemCommands it else [])) := by
    funext cs it
    by_cases h : it.needsRename <;> by_cases h2 : strToLower it.originalPath = strToLower it.newPath <;>
      simp [h, h2, planItemCommands]
  rw [hstep, foldl_append_eq_flatMap]
  rw [List.nil_append]
  induction stableSortBy moveCmpLe items with
  | nil => rfl
  | cons a as ih =>
    by_cases h : a.needsRename <;> simp [h, ih]

/-! ### Substring and basename facts -/

theorem containsSub_iff (pat : List Char) :
    ∀ s : List Char, containsSub pat s = true ↔ pat <:+: s := by
  intro s
  induction s with
  | nil => simp [containsSub, List.isEmpty_iff]
  | cons c rest ih =>
    rw [containsSub, Bool.or_eq_true, ih, List.infix_cons_iff]
    simp

theorem basename_of_no_slash {s : String} (h : '/' ∉ s.data) :
    basename s = s := by
  unfold basename
  have h1 : s.data.reverse.dropWhile (· = '/') = s.data.reverse := by
    rw [List.dropWhile_eq_self_iff]
    intro hl
    simp only [decide_eq_true_eq]
    intro heq
    apply h
    rw [← List.mem_reverse, ← heq]
    exact List.get_mem s.data.reverse 0 hl
  have h2 : s.data.reverse.takeWhile (fun c => decide (c ≠ '/')) = s.data.reverse := by
    rw [List.takeWhile_eq_self_iff]
    intro x hx
    simp only [decide_eq_true_eq]
    intro heq
    exact h (List.mem_reverse.mp (heq ▸ hx))
  rw [h1, h2, List.reverse_reverse]

/-! ### Splitting and joining on slashes -/

theorem splitSeg_ne_nil : ∀ l : List Char, splitSeg l ≠ [] := by
  intro l
  induction l with
  | nil => simp [splitSeg]
  | cons c rest ih =>
    rw [splitSeg]
    split_ifs
    · simp
    · match h : splitSeg rest with
      | [] => simp
      | s :: ss => simp

theorem splitSeg_no_slash : ∀ l : List Char, ∀ seg ∈ splitSeg l, '/' ∉ seg := by
  intro l
  induction l with
  | nil =>
    intro seg hseg
    simp [splitSeg] at hseg
    simp [hseg]
  | cons c rest ih =>
    intro seg hseg
    rw [splitSeg] at hseg
    split_ifs at hseg with hc
    · rcases List.mem_cons.mp hseg with rfl | h
      · simp
      · exact ih seg h
    · revert hseg
      match h : splitSeg rest with
      | [] => exact absurd h (splitSeg_ne_nil rest)
      | s :: ss =>
        intro hseg
        rcases List.mem_cons.mp hseg with rfl | hm
        · intro hmem
          rcases List.mem_cons.mp hmem with rfl | hs
          · exact hc rfl
          · exact ih s (h ▸ List.mem_cons_self s ss) hs
        · exact ih seg (h ▸ List.mem_cons_of_mem s hm)

theorem splitSeg_of_no_slash {s : List Char} (h : '/' ∉ s) :
    splitSeg s = [s] := by
  induction s with
  | nil => rfl
  | cons c rest ih =>
    rw [splitSeg, if_neg (by rintro rfl; exact h (List.mem_cons_self _ _)),
      ih (fun hm => h (List.mem_cons_of_mem c hm))]

theorem splitSeg_append_slash {s : List Char} (t : List Char) (h : '/' ∉ s) :
    splitSeg (s ++ '/' :: t) = s :: splitSeg t := by
  induction s with
  | nil => simp [splitSeg]
  | cons c s' ih =>
    rw [List.cons_append, splitSeg,
      if_neg (by rintro rfl; exact h (List.mem_cons_self _ _)),
      ih (fun hm => h (List.mem_cons_of_mem c hm))]

theorem splitSeg_joinSeg :
    ∀ ss : List (List Char), ss ≠ [] → (∀ s ∈ ss, '/' ∉ s) →
      splitSeg (joinSeg ss) = ss := by
  intro ss
  induction ss with
  | nil => intro h; exact absurd rfl h
  | cons s ss' ih =>
    intro _ hs
    match ss' with
    | [] => exact splitSeg_of_no_slash (hs s (by simp))
    | t :: ts =>
      have hjoin : joinSeg (s :: t :: ts) = s ++ '/' :: joinSeg (t :: ts) := rfl
      rw [hjoin, splitSeg_append_slash _ (hs s (by simp)),
        ih (List.cons_ne_nil t ts) (fun u hu => hs u (List.mem_cons_of_mem s hu))]

/-! ### Last-dot and extension facts -/

theorem lastDotIdx_none_iff : ∀ l : List Char, lastDotIdx l = none ↔ '.' ∉ l := by
  intro l
  induction l with
  | nil => simp [lastDotIdx]
  | cons c rest ih =>
    rw [lastDotIdx]
    cases hr : lastDotIdx rest with
    | some i =>
      simp only [List.mem_cons]
      constructor
      · intro h; cases h
      · intro h
        exact absurd (ih.mpr (fun hm => h (Or.inr hm))) (by simp [hr])
    | none =>
      simp only [List.mem_cons]
      split_ifs with hc
      · subst hc
        simp
      · simp only [true_iff]
        intro h
        rcases h with h | h
        · exact hc h.symm
        · exact ih.mp hr h

theorem lastDotIdx_spec :
    ∀ (l : List Char) (d : Nat), lastDotIdx l = some d →
      d < l.length ∧ l.drop d = '.' :: l.drop (d + 1) ∧ '.' ∉ l.drop (d + 1) := by
  intro l
  induction l with
  | nil => intro d h; cases h
  | cons c rest ih =>
    intro d h
    rw [lastDotIdx] at h
    cases hr : lastDotIdx rest with
    | some i =>
      rw [hr] at h
      injection h with h
      subst h
      obtain ⟨h1, h2, h3⟩ := ih i hr
      exact ⟨by simpa using Nat.succ_lt_succ h1, by simpa using h2, by simpa using h3⟩
    | none =>
      rw [hr] at h
      split_ifs at h with hc
      subst hc
      injection h with h
      subst h
      exact ⟨by simp, by simp, (lastDotIdx_none_iff rest).mp hr⟩

theorem lastDotIdx_append {e : List Char} (he : '.' ∉ e) :
    ∀ a : List Char, lastDotIdx (a ++ '.' :: e) = some a.length := by
  intro a
  induction a with
  | nil =>
    rw [List.nil_append, lastDotIdx, (lastDotIdx_none_iff e).mpr he]
    simp
  | cons c a' ih =>
    rw [List.cons_append, lastDotIdx, ih]
    simp

/-! ### The passes only insert hyphens and never shrink -/

theorem pass1_length : ∀ l : List Char, l.length ≤ (pass1 l).length := by
  intro l
  induction l using pass1.induct with
  | case1 => simp [pass1]
  | case2 c => simp [pass1]
  | case3 c₁ c₂ rest hcond ih =>
    rw [pass1, if_pos hcond]
    simpa using Nat.le_trans ih (by omega)
  | case4 c₁ c₂ rest hcond ih =>
    rw [pass1, if_neg hcond]
    simpa using ih

theorem pass2_length : ∀ l : List Char, l.length ≤ (pass2 l).length := by
  intro l
  induction l using pass2.induct with
  | case1 => simp [pass2]
  | case2 c => simp [pass2]
  | case3 c₁ c₂ => simp [pass2]
  | case4 c₁ c₂ c₃ rest hcond ih =>
    rw [pass2, if_pos hcond]
    simpa using Nat.le_trans ih (by omega)
  | case5 c₁ c₂ c₃ rest hcond ih =>
    rw [pass2, if_neg hcond]
    simpa using ih

theorem pass1_subset : ∀ l : List Char, ∀ c ∈ pass1 l, c = '-' ∨ c ∈ l := by
  intro l
  induction l using pass1.induct with
  | case1 => intro c hc; cases hc
  | case2 c₀ => intro c hc; simp [pass1] at hc; simp [hc]
  | case3 c₁ c₂ rest hcond ih =>
    intro c hc
    rw [pass1, if_pos hcond] at hc
    simp only [List.mem_cons] at hc ⊢
    rcases hc with rfl | rfl | rfl | hc
    · exact Or.inr (Or.inl rfl)
    · exact Or.inl rfl
    · exact Or.inr (Or.inr (Or.inl rfl))
    · rcases ih c hc with h | h
      · exact Or.inl h
      · exact Or.inr (Or.inr (Or.inr h))
  | case4 c₁ c₂ rest hcond ih =>
    intro c hc
    rw [pass1, if_neg hcond] at hc
    simp only [List.mem_cons] at hc ⊢
    rcases hc with rfl | hc
    · exact Or.inr (Or.inl rfl)
    · rcases ih c hc with h | h
      · exact Or.inl h
      · simp only [List.mem_cons] at h
        rcases h with rfl | h
        · exact Or.inr (Or.inr (Or.inl rfl))
        · exact Or.inr (Or.inr (Or.inr h))

theorem pass2_subset : ∀ l : List Char, ∀ c ∈ pass2 l, c = '-' ∨ c ∈ l := by
  intro l
  induction l using pass2.induct with
  | case1 => intro c hc; cases hc
  | case2 c₀ => intro c hc; simp [pass2] at hc; simp [hc]
  | case3 c₁ c₂ => intro c hc; simp [pass2] at hc; simp [hc]
  | case4 c₁ c₂ c₃ rest hcond ih =>
    intro c hc
    rw [pass2, if_pos hcond] at hc
    simp only [List.mem_cons] at hc ⊢
    rcases hc with rfl | rfl | rfl | rfl | hc
    · exact Or.inr (Or.inl rfl)
    · exact Or.inl rfl
    · exact Or.inr (Or.inr (Or.inl rfl))
    · exact Or.inr (Or.inr (Or.inr (Or.inl rfl)))
    · rcases ih c hc with h | h
      · exact Or.inl h
      · exact Or.inr (Or.inr (Or.inr (Or.inr h)))
  | case5 c₁ c₂ c₃ rest hcond ih =>
    intro c hc
    rw [pass2, if_neg hcond] at hc
    simp only [List.mem_cons] at hc ⊢
    rcases hc with rfl | hc
    · exact Or.inr (Or.inl rfl)
    · rcases ih c hc with h | h
      · exact Or.inl h
      · simp only [List.mem_cons] at h
        rcases h with rfl | rfl | h
        · exact Or.inr (Or.inr (Or.inl rfl))
        · exact Or.inr (Or.inr (Or.inr (Or.inl rfl)))
        · exact Or.inr (Or.inr (Or.inr (Or.inr h)))

/-! ### Character provenance and length of the converter's output -/

theorem camelL_chars {l : List Char} {c : Char} (hc : c ∈ camelCaseToKebabCaseL l) :
    c = '-' ∨ ∃ c₀ ∈ l, c = c₀.toLower := by
  rw [camelCaseToKebabCaseL] at hc
  split_ifs at hc with h1 h2 h3
  · cases hc
  · obtain ⟨c₀, hc₀, rfl⟩ := List.mem_map.mp hc
    exact Or.inr ⟨c₀, hc₀, rfl⟩
  · rw [h3.2] at hc
    obtain ⟨c₀, hc₀, rfl⟩ := List.mem_map.mp hc
    exact Or.inr ⟨c₀, hc₀, rfl⟩
  · obtain ⟨c₁, hc₁, rfl⟩ := List.mem_map.mp hc
    rcases pass2_subset _ c₁ hc₁ with rfl | hc₂
    · exact Or.inl rfl
    · rcases pass1_subset _ c₁ hc₂ with rfl | hc₃
      · exact Or.inl rfl
      · exact Or.inr ⟨c₁, hc₃, rfl⟩

theorem char_toLower_fix_out_of_range {c d : Char}
    (hd : ¬ (97 ≤ d.toNat ∧ d.toNat ≤ 122)) (h : c.toLower = d) : c = d := by
  by_cases hu : c.isUpper = true
  · exfalso
    obtain ⟨h1, h2⟩ := (char_isUpper_iff c).mp hu
    have := char_toLower_toNat_of_upper hu
    rw [h] at this
    omega
  · rw [Bool.not_eq_true] at hu
    rw [← char_toLower_eq_of_not_upper hu, h]

theorem camelL_not_mem {l : List Char} {d : Char} (hdash : d ≠ '-')
    (hd : ¬ (97 ≤ d.toNat ∧ d.toNat ≤ 122)) (hmem : d ∉ l) :
    d ∉ camelCaseToKebabCaseL l := by
  intro hc
  rcases camelL_chars hc with rfl | ⟨c₀, hc₀, heq⟩
  · exact hdash rfl
  · exact hmem ((char_toLower_fix_out_of_range hd heq.symm) ▸ hc₀)

theorem camelL_length_ge (l : List Char) :
    l.length ≤ (camelCaseToKebabCaseL l).length := by
  rw [camelCaseToKebabCaseL]
  split_ifs with h1 h2 h3
  · simp [h1]
  · simp
  · exact Nat.le_refl _
  · rw [List.length_map]
    exact Nat.le_trans (pass1_length l) (pass2_length _)

/-! ### The converter preserves a leading dot and, per segment, the extension -/

theorem pass1_cons_of_not_lowerOrDigit {c₁ : Char} (h : lowerOrDigit c₁ = false)
    (t : List Char) : pass1 (c₁ :: t) = c₁ :: pass1 t := by
  match t with
  | [] => rfl
  | c₂ :: rest => rw [pass1, if_neg (by simp [h])]

theorem pass2_cons_of_not_upper {c₁ : Char} (h : c₁.isUpper = false)
    (t : List Char) : pass2 (c₁ :: t) = c₁ :: pass2 t := by
  match t with
  | [] => rfl
  | [c₂] => rfl
  | c₂ :: c₃ :: rest => rw [pass2, if_neg (by simp [h])]

theorem camelL_cons_dot {t : List Char} (ht : t ≠ []) (hd : '.' ∉ t) :
    ∃ t', camelCaseToKebabCaseL ('.' :: t) = '.' :: t' ∧ '.' ∉ t' := by
  rw [camelCaseToKebabCaseL]
  have hne : ('.' :: t) ≠ [] := by simp
  have hlen : ¬ ('.' :: t).length = 1 := by
    simp only [List.length_cons]
    intro h
    have : t.length = 0 := by omega
    exact ht (List.length_eq_zero.mp this)
  rw [if_neg hne, if_neg hlen]
  by_cases hfast : '-' ∈ ('.' :: t) ∧ '.' :: t = ('.' :: t).map Char.toLower
  · rw [if_pos hfast]
    exact ⟨t, rfl, hd⟩
  · rw [if_neg hfast, pass1_cons_of_not_lowerOrDigit (by decide) t,
      pass2_cons_of_not_upper (by decide) (pass1 t), List.map_cons,
      show Char.toLower '.' = '.' from by decide]
    refine ⟨(pass2 (pass1 t)).map Char.toLower, rfl, ?_⟩
    intro hmem
    obtain ⟨c₀, hc₀, heq⟩ := List.mem_map.mp hmem
    have hc0 : c₀ = '.' := char_toLower_fix_out_of_range (by decide) heq
    subst hc0
    rcases pass2_subset _ _ hc₀ with h | h
    · cases h
    · rcases pass1_subset _ _ h with h' | h'
      · cases h'
      · exact hd h'

theorem extnameSeg_of_no_dot {l : List Char} (h : '.' ∉ l) :
    extnameSeg l = [] := by
  rw [extnameSeg, if_neg (by rintro rfl; exact h (by simp)),
    (lastDotIdx_none_iff l).mpr h]

theorem extnameSeg_camelL_of_empty {seg : List Char} (h0 : seg ≠ ['.'])
    (h1 : seg ≠ ['.', '.']) (he : extnameSeg seg = []) :
    extnameSeg (camelCaseToKebabCaseL seg) = [] := by
  rw [extnameSeg, if_neg h1] at he
  cases hl : lastDotIdx seg with
  | none =>
    have hnd : '.' ∉ seg := (lastDotIdx_none_iff seg).mp hl
    exact extnameSeg_of_no_dot
      (camelL_not_mem (by decide) (by decide) hnd)
  | some d =>
    rw [hl] at he
    cases d with
    | zero =>
      obtain ⟨_, h2, h3⟩ := lastDotIdx_spec seg 0 hl
      simp only [List.drop_zero, Nat.zero_add] at h2 h3
      set u := seg.drop 1 with hu
      have ht : u ≠ [] := by
        intro hnil
        rw [hnil] at h2
        exact h0 h2
      obtain ⟨t', ht', hdt'⟩ := camelL_cons_dot ht h3
      rw [h2, ht', extnameSeg]
      split_ifs with hx
      · rfl
      · rw [lastDotIdx, (lastDotIdx_none_iff t').mpr hdt']
        simp
    | succ d' =>
      exfalso
      obtain ⟨hlt, h2, _⟩ := lastDotIdx_spec seg (d' + 1) hl
      have he' : seg.drop (d' + 1) = [] := he
      rw [h2] at he'
      cases he'

theorem extnameSeg_append_ext {a e : List Char} (ha : a ≠ [])
    (hne : a ++ '.' :: e ≠ ['.', '.']) (he : '.' ∉ e) :
    extnameSeg (a ++ '.' :: e) = '.' :: e := by
  rw [extnameSeg, if_neg hne, lastDotIdx_append he a]
  match hx : a, ha with
  | c :: a', _ =>
    show (match some (c :: a').length with
      | none => ([] : List Char)
      | some 0 => []
      | some d => ((c :: a') ++ '.' :: e).drop d) = '.' :: e
    simp only [List.length_cons]
    exact (by rw [← List.length_cons c a']; exact List.drop_left (c :: a') ('.' :: e))

theorem extnameSeg_subset {l : List Char} : ∀ c ∈ extnameSeg l, c ∈ l := by
  intro c hc
  rw [extnameSeg] at hc
  split_ifs at hc with h
  · cases hc
  · revert hc
    cases lastDotIdx l with
    | none => intro hc; cases hc
    | some d =>
      cases d with
      | zero => intro hc; cases hc
      | succ d' =>
        intro hc
        exact List.drop_subset _ l hc

theorem camelL_singleton (c : Char) :
    camelCaseToKebabCaseL [c] = [c.toLower] := by
  rw [camelCaseToKebabCaseL, if_neg (by simp), if_pos (by simp)]
  rfl

theorem convertSegment_extname (seg : List Char) :
    extnameSeg (convertSegment seg) = extnameSeg seg := by
  rw [convertSegment]
  split_ifs with hs he
  · rfl
  · rcases not_or.mp hs with ⟨h0, hs'⟩
    rcases not_or.mp hs' with ⟨h1, _⟩
    rw [he]
    exact extnameSeg_camelL_of_empty h0 h1 he
  · rcases not_or.mp hs with ⟨h0, hs'⟩
    rcases not_or.mp hs' with ⟨h1, hnil⟩
    cases hl : lastDotIdx seg with
    | none =>
      exact absurd (by rw [extnameSeg, if_neg h1, hl]) he
    | some d =>
      cases d with
      | zero => exact absurd (by rw [extnameSeg, if_neg h1, hl]) he
      | succ d' =>
        have hext : extnameSeg seg = seg.drop (d' + 1) := by
          rw [extnameSeg, if_neg h1, hl]
          rfl
        obtain ⟨hlt, h2, h3⟩ := lastDotIdx_spec seg (d' + 1) hl
        have hn : seg.length - (seg.drop (d' + 1)).length = d' + 1 := by
          rw [List.length_drop]
          omega
        rw [hext, hn, h2]
        have hta : (seg.take (d' + 1)).length = d' + 1 := by
          rw [List.length_take]
          omega
        have hane : camelCaseToKebabCaseL (seg.take (d' + 1)) ≠ [] := by
          intro hnl
          have hge := camelL_length_ge (seg.take (d' + 1))
          rw [hnl, hta] at hge
          simp at hge
        refine extnameSeg_append_ext hane ?_ (by simpa using h3)
        intro habs
        have hlenEq := congrArg List.length habs
        simp only [List.length_append, List.length_cons, List.length_nil] at hlenEq
        have hage := camelL_length_ge (seg.take (d' + 1))
        rw [hta] at hage
        have ha1 : (camelCaseToKebabCaseL (seg.take (d' + 1))).length = 1 := by omega
        have hd0 : d' = 0 := by omega
        have he0 : (seg.drop (d' + 1 + 1)).length = 0 := by omega
        subst hd0
        obtain ⟨a0, ha0⟩ := List.length_eq_one.mp ha1
        rw [ha0, List.length_eq_zero.mp he0] at habs
        simp only [List.cons_append, List.nil_append, List.cons.injEq, and_true] at habs
        obtain ⟨c0, hc0⟩ := List.length_eq_one.mp (show (seg.take 1).length = 1 from hta)
        rw [hc0, camelL_singleton] at ha0
        have hcd : c0.toLower = '.' := by
          have hx := ha0
          rw [habs] at hx
          simpa using hx
        have hc0d : c0 = '.' := char_toLower_fix_out_of_range (by decide) hcd
        have hseg : seg = ['.', '.'] := by
          have hsplit : seg.take 1 ++ seg.drop 1 = seg := List.take_append_drop 1 seg
          rw [hc0, hc0d] at hsplit
          rw [← hsplit, show seg.drop 1 = '.' :: seg.drop 2 from by simpa using h2,
            show seg.drop 2 = [] from List.length_eq_zero.mp (by simpa using he0)]
          rfl
        exact h1 hseg

theorem convertSegment_no_slash {seg : List Char} (h : '/' ∉ seg) :
    '/' ∉ convertSegment seg := by
  rw [convertSegment]
  split_ifs with hs he
  · exact h
  · exact camelL_not_mem (by decide) (by decide) h
  · intro hmem
    rcases List.mem_append.mp hmem with hm | hm
    · exact camelL_not_mem (by decide) (by decide)
        (fun hmem' => h (List.take_subset _ seg hmem')) hm
    · exact h (extnameSeg_subset _ hm)

/-! ### Scanner root checks -/

theorem scanRoots_ok_of_all :
    ∀ roots : List RootSpec, (∀ r ∈ roots, rootOk r = true) →
      ∃ items, scanRoots roots = .ok items := by
  intro roots
  induction roots with
  | nil => exact fun _ => ⟨[], rfl⟩
  | cons r rest ih =>
    intro h
    obtain ⟨p, e⟩ := r
    have hr := h (p, e) (List.mem_cons_self _ _)
    match e, hr with
    | some (.dir n en), _ =>
      obtain ⟨items, hit⟩ := ih (fun r hr => h r (List.mem_cons_of_mem _ hr))
      exact ⟨scanDirectoryRecursive en p ++ items, by rw [scanRoots, hit]; rfl⟩

theorem scanRoots_err_notFound :
    ∀ (roots : List RootSpec) (p : String),
      roots.find? (fun r => ! rootOk r) = some (p, none) →
      scanRoots roots = .error (.notFound p) := by
  intro roots
  induction roots with
  | nil => intro p h; simp at h
  | cons r rest ih =>
    intro p h
    by_cases hok : rootOk r = true
    · rw [List.find?_cons_of_neg _ (by simp [hok])] at h
      obtain ⟨q, e⟩ := r
      match e, hok with
      | some (.dir n en), _ =>
        rw [scanRoots, ih p h]
        rfl
    · rw [List.find?_cons_of_pos _ (by simp [hok])] at h
      injection h with h
      subst h
      rfl

theorem scanRoots_err_notADirectory :
    ∀ (roots : List RootSpec) (p name content : String),
      roots.find? (fun r => ! rootOk r) = some (p, some (.file name content)) →
      scanRoots roots = .error (.notADirectory p) := by
  intro roots
  induction roots with
  | nil => intro p name content h; simp at h
  | cons r rest ih =>
    intro p name content h
    by_cases hok : rootOk r = true
    · rw [List.find?_cons_of_neg _ (by simp [hok])] at h
      obtain ⟨q, e⟩ := r
      match e, hok with
      | some (.dir n en), _ =>
        rw [scanRoots, ih p name content h]
        rfl
    · rw [List.find?_cons_of_pos _ (by simp [hok])] at h
      injection h with h
      subst h
      rfl

/-! ### Executor fail-fast trace and message structure -/

theorem executeGitMoveCommands_fail (exec : String → ExecResult) (pg : Bool)
    (f : ExecFailure) (c : String) (post : List String) :
    ∀ pre : List String,
      (∀ d ∈ pre, ∃ out, exec (fullCmd pg d) = .ok out) →
      exec (fullCmd pg c) = .err f →
      (executeGitMoveCommands exec (pre ++ c :: post) pg).attempted =
        (pre ++ [c]).map (fullCmd pg) ∧
      (executeGitMoveCommands exec (pre ++ c :: post) pg).error =
        some (mkErrorMessage (fullCmd pg c) f) := by
  intro pre
  induction pre with
  | nil =>
    intro _ hc
    rw [List.nil_append, executeGitMoveCommands, hc]
    exact ⟨rfl, rfl⟩
  | cons d pre' ih =>
    intro hpre hc
    obtain ⟨out, hout⟩ := hpre d (List.mem_cons_self _ _)
    obtain ⟨ih1, ih2⟩ := ih (fun e he => hpre e (List.mem_cons_of_mem _ he)) hc
    rw [List.cons_append, executeGitMoveCommands, hout]
    exact ⟨by rw [List.cons_append, List.map_cons]; exact congrArg _ ih1, ih2⟩

theorem mkErrorMessage_contains_cmd (fc : String) (f : ExecFailure) :
    strContains (mkErrorMessage fc f) fc := by
  refine ⟨"Command failed: ".data,
    (stderrPart f ++ stdoutPart f ++ statusPart f ++ signalPart f).data, ?_⟩
  simp [mkErrorMessage, String.data_append, List.append_assoc]

theorem mkErrorMessage_contains_stderr {f : ExecFailure} {s : String}
    (fc : String) (hs : f.stderr = some s) (hne : s ≠ "") :
    strContains (mkErrorMessage fc f) ("Stderr: " ++ jsTrim s) := by
  have h1 : stderrPart f = "\nStderr: " ++ jsTrim s := by
    simp [stderrPart, hs, hne]
  refine ⟨"Command failed: ".data ++ fc.data ++ ['\n'],
    (stdoutPart f ++ statusPart f ++ signalPart f).data, ?_⟩
  have h2 : ("\nStderr: " : String).data = '\n' :: ("Stderr: " : String).data := rfl
  simp [mkErrorMessage, h1, h2, String.data_append, List.append_assoc]

theorem mkErrorMessage_contains_stdout {f : ExecFailure} {s : String}
    (fc : String) (hs : f.stdout = some s) (hne : s ≠ "") :
    strContains (mkErrorMessage fc f) ("Stdout: " ++ jsTrim s) := by
  have h1 : stdoutPart f = "\nStdout: " ++ jsTrim s := by
    simp [stdoutPart, hs, hne]
  refine ⟨"Command failed: ".data ++ fc.data ++ (stderrPart f).data ++ ['\n'],
    (statusPart f ++ signalPart f).data, ?_⟩
  have h2 : ("\nStdout: " : String).data = '\n' :: ("Stdout: " : String).data := rfl
  simp [mkErrorMessage, h1, h2, String.data_append, List.append_assoc]

theorem mkErrorMessage_contains_status {f : ExecFailure} {n : Int}
    (fc : String) (hs : f.status = some n) :
    strContains (mkErrorMessage fc f) ("Exit code: " ++ toString n) := by
  have h1 : statusPart f = "\nExit code: " ++ toString n := by
    simp [statusPart, hs]
  refine ⟨"Command failed: ".data ++ fc.data ++ (stderrPart f).data ++
      (stdoutPart f).data ++ ['\n'], (signalPart f).data, ?_⟩
  have h2 : ("\nExit code: " : String).data = '\n' :: ("Exit code: " : String).data := rfl
  simp [mkErrorMessage, h1, h2, String.data_append, List.append_assoc]

theorem mkErrorMessage_contains_signal {f : ExecFailure} {s : String}
    (fc : String) (hs : f.signal = some s) (hne : s ≠ "") :
    strContains (mkErrorMessage fc f) ("Signal: " ++ s) := by
  have h1 : signalPart f = "\nSignal: " ++ s := by
    simp [signalPart, hs, hne]
  refine ⟨"Command failed: ".data ++ fc.data ++ (stderrPart f).data ++
      (stdoutPart f).data ++ (statusPart f).data ++ ['\n'], [], ?_⟩
  have h2 : ("\nSignal: " : String).data = '\n' :: ("Signal: " : String).data := rfl
  simp [mkErrorMessage, h1, h2, String.data_append, List.append_assoc]

/-! ### The rewriting passes: change flag and frame condition -/

theorem replaceLoop_flag (toks : List Tok) :
    ∀ (fuel : Nat) (s : List Char),
      (replaceLoop toks fuel s).2 =
        (specsLoop toks fuel s).any
          (fun p => decide (convertImportPathToKebabCase p ≠ p)) := by
  intro fuel
  induction fuel with
  | zero => intro s; rfl
  | succ fuel ih =>
    intro s
    cases s with
    | nil => rfl
    | cons c rest =>
      cases hm : runToks toks (c :: rest) with
      | none => simp only [replaceLoop, specsLoop, hm]; exact ih rest
      | some r =>
        obtain ⟨n, g⟩ := r
        by_cases hn : n = 0
        · simp only [replaceLoop, specsLoop, hm, hn, if_pos rfl]
          exact ih rest
        · by_cases hk :
            convertImportPathToKebabCase (⟨g⟩ : String) = (⟨g⟩ : String)
          · simp only [replaceLoop, specsLoop, hm, if_neg hn, if_pos hk,
              List.any_cons, hk]
            simp only [decide_not, decide_eq_true_eq] at *
            simp [hk, ih ((c :: rest).drop n)]
          · simp only [replaceLoop, specsLoop, hm, if_neg hn, if_neg hk,
              List.any_cons]
            simp [hk]

theorem replaceLoop_unchanged (toks : List Tok) :
    ∀ (fuel : Nat) (s : List Char),
      (replaceLoop toks fuel s).2 = false → (replaceLoop toks fuel s).1 = s := by
  intro fuel
  induction fuel with
  | zero => intro s _; rfl
  | succ fuel ih =>
    intro s
    cases s with
    | nil => intro _; rfl
    | cons c rest =>
      cases hm : runToks toks (c :: rest) with
      | none =>
        simp only [replaceLoop, hm]
        intro hb
        rw [ih rest hb]
      | some r =>
        obtain ⟨n, g⟩ := r
        by_cases hn : n = 0
        · simp only [replaceLoop, hm, if_pos hn]
          intro hb
          rw [ih rest hb]
        · by_cases hk :
            convertImportPathToKebabCase (⟨g⟩ : String) = (⟨g⟩ : String)
          · simp only [replaceLoop, hm, if_neg hn, if_pos hk]
            intro hb
            rw [ih ((c :: rest).drop n) hb, List.take_append_drop]
          · simp only [replaceLoop, hm, if_neg hn, if_neg hk]
            intro hb
            cases hb

theorem processContent_flag (content : String) :
    (processContent content).2 =
      (allMatchedSpecs content).any
        (fun p => decide (convertImportPathToKebabCase p ≠ p)) := by
  simp only [processContent, allMatchedSpecs, List.any_append, replacePass,
    replaceLoop_flag, matchedSpecs]

theorem replacePass_unchanged (toks : List Tok) (s : List Char)
    (h : (replacePass toks s).2 = false) : (replacePass toks s).1 = s :=
  replaceLoop_unchanged toks s.length s h

theorem processContent_unchanged {content : String}
    (h : (processContent content).2 = false) :
    (processContent content).1 = content := by
  simp only [processContent, Bool.or_eq_false_iff] at h
  obtain ⟨⟨h1, h2⟩, h3⟩ := h
  simp only [processContent]
  have e1 := replacePass_unchanged _ _ h1
  rw [e1] at h2 h3 ⊢
  have e2 := replacePass_unchanged _ _ h2
  rw [e2] at h3 ⊢
  rw [replacePass_unchanged _ _ h3]

theorem updateImportsInFile_flag (p content : String) :
    (updateImportsInFile p content).2 = true ↔
      (extnamePath p ∈ IMPORT_FILE_EXTENSIONS ∧
        (allMatchedSpecs content).any
          (fun q => decide (convertImportPathToKebabCase q ≠ q)) = true) := by
  simp only [updateImportsInFile]
  by_cases hext : extnamePath p ∈ IMPORT_FILE_EXTENSIONS
  · rw [if_pos hext]
    simp only [hext, true_and]
    by_cases hflag : (processContent content).2 = true
    · rw [if_pos hflag]
      exact ⟨fun _ => by rw [← processContent_flag]; exact hflag, fun _ => rfl⟩
    · rw [if_neg hflag]
      constructor
      · intro h
        exact absurd h (by simp)
      · intro h
        exact absurd (by rw [processContent_flag]; exact h) hflag
  · rw [if_neg hext]
    simp [hext]

theorem updateImportsInFile_untouched (p content : String)
    (h : (updateImportsInFile p content).2 = false) :
    (updateImportsInFile p content).1 = content := by
  simp only [updateImportsInFile] at h ⊢
  by_cases hext : extnamePath p ∈ IMPORT_FILE_EXTENSIONS
  · rw [if_pos hext] at h ⊢
    by_cases hflag : (processContent content).2 = true
    · rw [if_pos hflag] at h
      cases h
    · rw [if_neg hflag]
  · rw [if_neg hext]

theorem processFiles_spec :
    ∀ files : List (String × String),
      (processFiles files).1 =
        files.map (fun pc => (pc.1, (updateImportsInFile pc.1 pc.2).1)) ∧
      (processFiles files).2 =
        (files.filter (fun pc => (updateImportsInFile pc.1 pc.2).2)).map
          Prod.fst := by
  intro files
  induction files with
  | nil => exact ⟨rfl, rfl⟩
  | cons pc rest ih =>
    obtain ⟨p, content⟩ := pc
    obtain ⟨ih1, ih2⟩ := ih
    constructor
    · simp only [processFiles, List.map_cons]
      rw [ih1]
    · simp only [processFiles, List.filter_cons]
      by_cases hf : (updateImportsInFile p content).2 <;> simp [hf, ih2]

end Baptist

/-! ## Claim C6 -/

/-- C6: `toKebabCase` is idempotent on every input string, and every input of
length at least 2 that contains a hyphen and has no uppercase letters is
returned unchanged (the rule 3 fast path). -/
theorem c6_toKebabCase_idempotent (s : String) :
    Baptist.camelCaseToKebabCase (Baptist.camelCaseToKebabCase s) =
      Baptist.camelCaseToKebabCase s ∧
    (2 ≤ s.length → '-' ∈ s.data → (∀ c ∈ s.data, c.isUpper = false) →
      Baptist.camelCaseToKebabCase s = s) := by
  constructor
  · show (⟨Baptist.camelCaseToKebabCaseL (Baptist.camelCaseToKebabCaseL s.data)⟩ : String) = _
    rw [Baptist.camelL_idem]
    rfl
  · intro hlen hdash hup
    show (⟨Baptist.camelCaseToKebabCaseL s.data⟩ : String) = s
    have hlen' : s.data.length = s.length := rfl
    have : Baptist.camelCaseToKebabCaseL s.data = s.data := by
      unfold Baptist.camelCaseToKebabCaseL
      rw [if_neg (by intro h; rw [h] at hlen'; simp at hlen'; omega),
        if_neg (by omega), if_pos ⟨hdash, (Baptist.map_toLower_fixed_of_no_upper hup).symm⟩]
    rw [this]

/-- Witness for C6 at the concrete input `"ab-c"`. -/
theorem c6_toKebabCase_idempotent_witness :
    Baptist.camelCaseToKebabCase (Baptist.camelCaseToKebabCase "ab-c") =
      Baptist.camelCaseToKebabCase "ab-c" ∧
    Baptist.camelCaseToKebabCase "ab-c" = "ab-c" :=
  ⟨(c6_toKebabCase_idempotent "ab-c").1,
   (c6_toKebabCase_idempotent "ab-c").2 (by decide) (by decide) (by decide)⟩

/-! ## Claim C3 -/

/-- C3: the name conversion function satisfies all six spec examples:
`firstName ↦ first-name`, `XMLHttpRequest ↦ xml-http-request`,
`user123Id ↦ user123-id`, `"" ↦ ""`, `a ↦ a`,
`XMLHTTPSConnection ↦ xmlhttps-connection`. -/
theorem c3_toKebabCase_examples :
    Baptist.camelCaseToKebabCase "firstName" = "first-name" ∧
    Baptist.camelCaseToKebabCase "XMLHttpRequest" = "xml-http-request" ∧
    Baptist.camelCaseToKebabCase "user123Id" = "user123-id" ∧
    Baptist.camelCaseToKebabCase "" = "" ∧
    Baptist.camelCaseToKebabCase "a" = "a" ∧
    Baptist.camelCaseToKebabCase "XMLHTTPSConnection" = "xmlhttps-connection" := by
  refine ⟨?_, ?_, ?_, ?_, ?_, ?_⟩ <;> decide

/-! ## Claim C1 -/

/-- C1: refuted on the code — the planner sorts directory items by
**descending** path depth (deepest first), so for an ancestor directory `DirA`
and its descendant `dir-a/SubB` the descendant's command is emitted strictly
**before** the ancestor's, while the claim requires ascending depth
(ancestor strictly first). The unused helper `sortItemsForSafeRenaming`
orders the same two items ancestor-first, as the claim states. -/
theorem c1_planner_directory_order :
    Baptist.generateMoveCommands
        [⟨"DirA", "dir-a", true, true⟩, ⟨"dir-a/SubB", "dir-a/sub-b", true, true⟩] =
      [Baptist.mkMv "dir-a/SubB" "dir-a/sub-b", Baptist.mkMv "DirA" "dir-a"] ∧
    Baptist.sortItemsForSafeRenaming
        [⟨"DirA", "dir-a", true, true⟩, ⟨"dir-a/SubB", "dir-a/sub-b", true, true⟩] =
      [⟨"DirA", "dir-a", true, true⟩, ⟨"dir-a/SubB", "dir-a/sub-b", true, true⟩] := by
  constructor <;> decide

/-! ## Claim C2 -/

/-- C2 counterexample: an item whose `originalPath` and `newPath` are
*identical* (so they do **not** differ under case-sensitive comparison) but
which has `needsRename = true` receives the two-command temporary-suffix
sequence, not the single direct move the claim assigns to "every other item
with needsRename true". -/
theorem c2_case_only_counterexample :
    Baptist.generateMoveCommands [⟨"a", "a", false, true⟩] =
      [Baptist.mkMv "a" "a.temp-rename", Baptist.mkMv "a.temp-rename" "a"] ∧
    (⟨"a", "a", false, true⟩ : Baptist.FileSystemItem).originalPath =
      (⟨"a", "a", false, true⟩ : Baptist.FileSystemItem).newPath := by
  constructor <;> decide

/-- C2 (amended): the planner's command sequence is the concatenation, in
sorted order, of per-item blocks of the `needsRename` items, where an item
whose `originalPath` equals its `newPath` under case-insensitive comparison
(whether or not they differ case-sensitively) contributes exactly the two
consecutive commands through `newPath + ".temp-rename"`, and every other
`needsRename` item contributes exactly one move command `originalPath →
newPath`. -/
theorem c2_case_only_two_commands (items : List Baptist.FileSystemItem) :
    Baptist.generateMoveCommands items =
      ((Baptist.stableSortBy Baptist.moveCmpLe items).filter
        (·.needsRename)).flatMap Baptist.planItemCommands ∧
    ∀ item : Baptist.FileSystemItem,
      (Baptist.strToLower item.originalPath = Baptist.strToLower item.newPath →
        Baptist.planItemCommands item =
          [Baptist.mkMv item.originalPath (item.newPath ++ ".temp-rename"),
           Baptist.mkMv (item.newPath ++ ".temp-rename") item.newPath]) ∧
      (Baptist.strToLower item.originalPath ≠ Baptist.strToLower item.newPath →
        Baptist.planItemCommands item =
          [Baptist.mkMv item.originalPath item.newPath]) := by
  refine ⟨Baptist.generateMoveCommands_eq items, fun item => ⟨fun h => ?_, fun h => ?_⟩⟩
  · simp [Baptist.planItemCommands, h]
  · simp [Baptist.planItemCommands, h]

/-- Witness for C2 (amended) at two concrete items: a case-only rename
`Foo → foo` yields the two-command block, a regular rename `Bar → baz`
yields one command. -/
theorem c2_case_only_two_commands_witness :
    Baptist.planItemCommands ⟨"Foo", "foo", false, true⟩ =
      [Baptist.mkMv "Foo" "foo.temp-rename", Baptist.mkMv "foo.temp-rename" "foo"] ∧
    Baptist.planItemCommands ⟨"Bar", "baz", false, true⟩ =
      [Baptist.mkMv "Bar" "baz"] :=
  ⟨((c2_case_only_two_commands []).2 ⟨"Foo", "foo", false, true⟩).1 (by decide),
   ((c2_case_only_two_commands []).2 ⟨"Bar", "baz", false, true⟩).2 (by decide)⟩

/-! ## Claim C4 -/

/-- C4 counterexample: the two walks' skip predicates are not equal as
functions of the base name — the scanner skips `coverage` (and even
`distribution`, an unanchored substring hit of `/dist/`) while the import
rewriter's re-walk skips neither. -/
theorem c4_skip_predicates_counterexample :
    Baptist.shouldSkip "coverage" = true ∧
    Baptist.reWalkSkipDir "coverage" = false ∧
    Baptist.shouldSkip "distribution" = true ∧
    Baptist.reWalkSkipDir "distribution" = false := by
  refine ⟨?_, ?_, ?_, ?_⟩ <;> decide

/-- C4 (amended): the tree scanner skips an entry exactly when its base name
starts with `'.'` or contains one of `node_modules`, `.git`, `dist`, `build`,
`coverage`, `.nyc_output` as a substring (the patterns are unanchored), while
the import rewriter's re-walk skips only directory entries whose name starts
with `'.'` or equals `node_modules`, `dist` or `build`; the two predicates
differ (e.g. at base name `coverage`). -/
theorem c4_skip_predicates (name : String) (hslash : '/' ∉ name.data) :
    (Baptist.shouldSkip name = true ↔
      ("." : String).data <+: name.data ∨
        ∃ pat ∈ (["node_modules", ".git", "dist", "build", "coverage",
          ".nyc_output"] : List String), pat.data <:+: name.data) ∧
    (Baptist.reWalkSkipDir name = true ↔
      ("." : String).data <+: name.data ∨
        name = "node_modules" ∨ name = "dist" ∨ name = "build") ∧
    Baptist.shouldSkip "coverage" ≠ Baptist.reWalkSkipDir "coverage" := by
  refine ⟨?_, ?_, by decide⟩
  · rw [Baptist.shouldSkip, Baptist.basename_of_no_slash hslash]
    simp only [Baptist.skipPatternTests, List.any_cons, List.any_nil,
      Bool.or_eq_true, Bool.or_false, Baptist.jsStartsWith,
      List.isPrefixOf_iff_prefix, Baptist.containsSub_iff]
    constructor
    · rintro (h | h | h | h | h | h | h)
      · exact Or.inl h
      all_goals refine Or.inr ⟨_, by simp, h⟩
    · rintro (h | ⟨pat, hmem, hinf⟩)
      · exact Or.inl h
      · simp only [List.mem_cons, List.not_mem_nil, or_false] at hmem
        rcases hmem with rfl | rfl | rfl | rfl | rfl | rfl <;> simp [hinf]
  · rw [Baptist.reWalkSkipDir]
    simp [Baptist.jsStartsWith, List.isPrefixOf_iff_prefix, or_assoc]

/-- Witness for C4 (amended) at the slash-free base name `coverage`. -/
theorem c4_skip_predicates_witness :
    (Baptist.shouldSkip "coverage" = true ↔
      ("." : String).data <+: "coverage".data ∨
        ∃ pat ∈ (["node_modules", ".git", "dist", "build", "coverage",
          ".nyc_output"] : List String), pat.data <:+: "coverage".data) ∧
    (Baptist.reWalkSkipDir "coverage" = true ↔
      ("." : String).data <+: "coverage".data ∨
        "coverage" = "node_modules" ∨ "coverage" = "dist" ∨
          "coverage" = "build") ∧
    Baptist.shouldSkip "coverage" ≠ Baptist.reWalkSkipDir "coverage" :=
  c4_skip_predicates "coverage" (by decide)

/-! ## Claim C5 -/

/-- C5: the rewriter's path conversion returns a specifier unchanged when it
does not begin with `.` or `/`; otherwise it splits on `/`, returns `.`, `..`
and empty segments unchanged, converts only the name portion and reattaches
the extension for segments with a file extension, converts whole segments
otherwise, and rejoins with `/`. -/
theorem c5_convert_import_path (p : String) :
    (¬ Baptist.jsStartsWith "." p = true ∧ ¬ Baptist.jsStartsWith "/" p = true →
      Baptist.convertImportPathToKebabCase p = p) ∧
    ((Baptist.jsStartsWith "." p = true ∨ Baptist.jsStartsWith "/" p = true) →
      (Baptist.convertImportPathToKebabCase p).data =
        Baptist.joinSeg ((Baptist.splitSeg p.data).map Baptist.convertSegment)) ∧
    (∀ seg : List Char, seg = ['.'] ∨ seg = ['.', '.'] ∨ seg = [] →
      Baptist.convertSegment seg = seg) ∧
    (∀ seg : List Char, ¬ (seg = ['.'] ∨ seg = ['.', '.'] ∨ seg = []) →
      Baptist.extnameSeg seg ≠ [] →
      Baptist.convertSegment seg =
        Baptist.camelCaseToKebabCaseL
            (seg.take (seg.length - (Baptist.extnameSeg seg).length)) ++
          Baptist.extnameSeg seg) ∧
    (∀ seg : List Char, ¬ (seg = ['.'] ∨ seg = ['.', '.'] ∨ seg = []) →
      Baptist.extnameSeg seg = [] →
      Baptist.convertSegment seg = Baptist.camelCaseToKebabCaseL seg) := by
  refine ⟨?_, ?_, ?_, ?_, ?_⟩
  · intro h
    rw [Baptist.convertImportPathToKebabCase, if_pos h]
  · intro h
    rw [Baptist.convertImportPathToKebabCase, if_neg (by tauto)]
  · intro seg hseg
    rw [Baptist.convertSegment, if_pos hseg]
  · intro seg hs hne
    rw [Baptist.convertSegment, if_neg hs, if_neg hne]
  · intro seg hs he
    rw [Baptist.convertSegment, if_neg hs, if_pos he]

/-- Witness for C5 at the concrete specifiers `react` (external, untouched)
and `./FooBar/BazQux.ts` (relative, converted segment-wise). -/
theorem c5_convert_import_path_witness :
    Baptist.convertImportPathToKebabCase "react" = "react" ∧
    (Baptist.convertImportPathToKebabCase "./FooBar/BazQux.ts").data =
      Baptist.joinSeg
        ((Baptist.splitSeg "./FooBar/BazQux.ts".data).map Baptist.convertSegment) ∧
    Baptist.convertSegment ['.'] = ['.'] :=
  ⟨(c5_convert_import_path "react").1 (by decide),
   (c5_convert_import_path "./FooBar/BazQux.ts").2.1 (Or.inl (by decide)),
   (c5_convert_import_path "x").2.2.1 ['.'] (Or.inl rfl)⟩

/-! ## Claim C10 -/

/-- C10: for relative specifiers the conversion preserves segment structure:
the converted specifier has exactly the segments of the original mapped
position-wise (hence the same count, so depth and the leading `./` / `../`
prefix never change), `.`, `..` and empty segments map to themselves, and
every segment's trailing extension text is preserved exactly. -/
theorem c10_segment_structure (p : String)
    (h : Baptist.jsStartsWith "." p = true ∨ Baptist.jsStartsWith "/" p = true) :
    Baptist.splitSeg (Baptist.convertImportPathToKebabCase p).data =
      (Baptist.splitSeg p.data).map Baptist.convertSegment ∧
    (Baptist.splitSeg (Baptist.convertImportPathToKebabCase p).data).length =
      (Baptist.splitSeg p.data).length ∧
    (∀ seg ∈ Baptist.splitSeg p.data,
      seg = ['.'] ∨ seg = ['.', '.'] ∨ seg = [] →
        Baptist.convertSegment seg = seg) ∧
    (∀ seg ∈ Baptist.splitSeg p.data,
      Baptist.extnameSeg (Baptist.convertSegment seg) = Baptist.extnameSeg seg) := by
  have hdata : (Baptist.convertImportPathToKebabCase p).data =
      Baptist.joinSeg ((Baptist.splitSeg p.data).map Baptist.convertSegment) := by
    rw [Baptist.convertImportPathToKebabCase, if_neg (by tauto)]
  have hmain : Baptist.splitSeg (Baptist.convertImportPathToKebabCase p).data =
      (Baptist.splitSeg p.data).map Baptist.convertSegment := by
    rw [hdata]
    refine Baptist.splitSeg_joinSeg _ ?_ ?_
    · intro hnil
      exact Baptist.splitSeg_ne_nil p.data (List.map_eq_nil_iff.mp hnil)
    · intro s hs
      obtain ⟨seg, hseg, rfl⟩ := List.mem_map.mp hs
      exact Baptist.convertSegment_no_slash (Baptist.splitSeg_no_slash p.data seg hseg)
  refine ⟨hmain, by rw [hmain, List.length_map], ?_, ?_⟩
  · intro seg _ hspec
    rw [Baptist.convertSegment, if_pos hspec]
  · intro seg _
    exact Baptist.convertSegment_extname seg

/-- Witness for C10 at the concrete relative specifier `./FooBar/BazQux.ts`. -/
theorem c10_segment_structure_witness :
    Baptist.splitSeg
        (Baptist.convertImportPathToKebabCase "./FooBar/BazQux.ts").data =
      (Baptist.splitSeg "./FooBar/BazQux.ts".data).map Baptist.convertSegment ∧
    (Baptist.splitSeg
        (Baptist.convertImportPathToKebabCase "./FooBar/BazQux.ts").data).length =
      (Baptist.splitSeg "./FooBar/BazQux.ts".data).length ∧
    (∀ seg ∈ Baptist.splitSeg "./FooBar/BazQux.ts".data,
      seg = ['.'] ∨ seg = ['.', '.'] ∨ seg = [] →
        Baptist.convertSegment seg = seg) ∧
    (∀ seg ∈ Baptist.splitSeg "./FooBar/BazQux.ts".data,
      Baptist.extnameSeg (Baptist.convertSegment seg) = Baptist.extnameSeg seg) :=
  c10_segment_structure "./FooBar/BazQux.ts" (Or.inl (by decide))

/-! ## Claim C9 -/

/-- C9: the scan fails with `NotFoundError` when the first failing root is a
missing path, fails with `NotADirectoryError` when the first failing root
exists but is a file, and when every root exists and is a directory it
returns a `ScanResult` whose `totalItems` equals the length of its `items`
sequence. -/
theorem c9_scan_errors (roots : List Baptist.RootSpec) :
    ((∀ r ∈ roots, Baptist.rootOk r = true) →
      ∃ res, Baptist.scanDirectories roots = .ok res ∧
        res.totalItems = res.items.length) ∧
    (∀ p, roots.find? (fun r => ! Baptist.rootOk r) = some (p, none) →
      Baptist.scanDirectories roots = .error (.notFound p)) ∧
    (∀ p name content,
      roots.find? (fun r => ! Baptist.rootOk r) =
        some (p, some (.file name content)) →
      Baptist.scanDirectories roots = .error (.notADirectory p)) := by
  refine ⟨?_, ?_, ?_⟩
  · intro h
    obtain ⟨items, hit⟩ := Baptist.scanRoots_ok_of_all roots h
    exact ⟨⟨items, items.length⟩, by rw [Baptist.scanDirectories, hit]; rfl, rfl⟩
  · intro p h
    rw [Baptist.scanDirectories, Baptist.scanRoots_err_notFound roots p h]
    rfl
  · intro p name content h
    rw [Baptist.scanDirectories,
      Baptist.scanRoots_err_notADirectory roots p name content h]
    rfl

/-- Witness for C9: a directory root succeeds with `totalItems` matching, a
missing root raises `NotFoundError`, a file root raises `NotADirectoryError`. -/
theorem c9_scan_errors_witness :
    (∃ res, Baptist.scanDirectories
        [("src", some (.dir "src" [.file "FooBar.ts" "x"]))] = .ok res ∧
      res.totalItems = res.items.length) ∧
    Baptist.scanDirectories [("gone", none)] = .error (.notFound "gone") ∧
    Baptist.scanDirectories [("f.ts", some (.file "f.ts" "x"))] =
      .error (.notADirectory "f.ts") :=
  ⟨(c9_scan_errors [("src", some (.dir "src" [.file "FooBar.ts" "x"]))]).1
      (by intro r hr; simp at hr; subst hr; rfl),
   (c9_scan_errors [("gone", none)]).2.1 "gone" rfl,
   (c9_scan_errors [("f.ts", some (.file "f.ts" "x"))]).2.2 "f.ts" "f.ts" "x" rfl⟩

/-! ## Claim C8 -/

/-- C8: the executor stops at the first command whose external move
invocation fails — the attempted sequence is exactly the successful prefix
plus the failing command, none of the remaining commands is attempted — and
the single terminating error carries the failing command's text, its trimmed
captured stderr and stdout (when non-empty), its exit status (when present),
and its signal (when present). -/
theorem c8_executor_fail_fast (exec : String → Baptist.ExecResult) (pg : Bool)
    (pre : List String) (c : String) (post : List String)
    (f : Baptist.ExecFailure)
    (hpre : ∀ d ∈ pre, ∃ out, exec (Baptist.fullCmd pg d) = .ok out)
    (hc : exec (Baptist.fullCmd pg c) = .err f) :
    (Baptist.executeGitMoveCommands exec (pre ++ c :: post) pg).attempted =
      (pre ++ [c]).map (Baptist.fullCmd pg) ∧
    (Baptist.executeGitMoveCommands exec (pre ++ c :: post) pg).error =
      some (Baptist.mkErrorMessage (Baptist.fullCmd pg c) f) ∧
    Baptist.strContains (Baptist.mkErrorMessage (Baptist.fullCmd pg c) f)
      (Baptist.fullCmd pg c) ∧
    (∀ s, f.stderr = some s → s ≠ "" →
      Baptist.strContains (Baptist.mkErrorMessage (Baptist.fullCmd pg c) f)
        ("Stderr: " ++ Baptist.jsTrim s)) ∧
    (∀ s, f.stdout = some s → s ≠ "" →
      Baptist.strContains (Baptist.mkErrorMessage (Baptist.fullCmd pg c) f)
        ("Stdout: " ++ Baptist.jsTrim s)) ∧
    (∀ n : Int, f.status = some n →
      Baptist.strContains (Baptist.mkErrorMessage (Baptist.fullCmd pg c) f)
        ("Exit code: " ++ toString n)) ∧
    (∀ s, f.signal = some s → s ≠ "" →
      Baptist.strContains (Baptist.mkErrorMessage (Baptist.fullCmd pg c) f)
        ("Signal: " ++ s)) := by
  obtain ⟨h1, h2⟩ := Baptist.executeGitMoveCommands_fail exec pg f c post pre hpre hc
  refine ⟨h1, h2, Baptist.mkErrorMessage_contains_cmd _ f, ?_, ?_, ?_, ?_⟩
  · intro s hs hne
    exact Baptist.mkErrorMessage_contains_stderr _ hs hne
  · intro s hs hne
    exact Baptist.mkErrorMessage_contains_stdout _ hs hne
  · intro n hn
    exact Baptist.mkErrorMessage_contains_status _ hn
  · intro s hs hne
    exact Baptist.mkErrorMessage_contains_signal _ hs hne

/-- Witness for C8 with the concrete oracle `sampleExec`: the first command
succeeds, the second fails, the third is never attempted. -/
theorem c8_executor_fail_fast_witness :
    (Baptist.executeGitMoveCommands Baptist.sampleExec
        ["mv \"A\" \"B\"", "mv \"C\" \"D\"", "mv \"E\" \"F\""] true).attempted =
      ["git mv \"A\" \"B\"", "git mv \"C\" \"D\""] ∧
    (Baptist.executeGitMoveCommands Baptist.sampleExec
        ["mv \"A\" \"B\"", "mv \"C\" \"D\"", "mv \"E\" \"F\""] true).error =
      some (Baptist.mkErrorMessage "git mv \"C\" \"D\""
        ⟨some " boom ", some "out", some 128, some "SIGTERM"⟩) ∧
    Baptist.strContains
      (Baptist.mkErrorMessage "git mv \"C\" \"D\""
        ⟨some " boom ", some "out", some 128, some "SIGTERM"⟩)
      ("Stderr: " ++ Baptist.jsTrim " boom ") := by
  have h := c8_executor_fail_fast Baptist.sampleExec true ["mv \"A\" \"B\""]
    "mv \"C\" \"D\"" ["mv \"E\" \"F\""]
    ⟨some " boom ", some "out", some 128, some "SIGTERM"⟩
    (by
      intro d hd
      simp only [List.mem_singleton] at hd
      subst hd
      exact ⟨" done ", rfl⟩)
    rfl
  exact ⟨h.1, h.2.1, h.2.2.2.1 " boom " rfl (by decide)⟩

/-! ## Claim C7 -/

/-- C7: the import rewriter writes a file back only when at least one of its
matched specifiers changed under conversion — the update flag of a file holds
exactly when its extension is recognized and some specifier matched during
the three passes changes — a file whose flag is down keeps its content byte
for byte, and `updateImportsInFiles` returns exactly the paths of the files
whose flag was up, in walk order. -/
theorem c7_rewriter_frame (roots : List (String × List Baptist.FsEntry)) :
    (Baptist.updateImportsInFiles roots).2 =
      ((roots.flatMap fun r => Baptist.walkEntries r.2 r.1).filter
        (fun pc => (Baptist.updateImportsInFile pc.1 pc.2).2)).map Prod.fst ∧
    (Baptist.updateImportsInFiles roots).1 =
      (roots.flatMap fun r => Baptist.walkEntries r.2 r.1).map
        (fun pc => (pc.1, (Baptist.updateImportsInFile pc.1 pc.2).1)) ∧
    (∀ p content : String,
      (Baptist.updateImportsInFile p content).2 = true ↔
        (Baptist.extnamePath p ∈ Baptist.IMPORT_FILE_EXTENSIONS ∧
          (Baptist.allMatchedSpecs content).any
            (fun q =>
              decide (Baptist.convertImportPathToKebabCase q ≠ q)) = true)) ∧
    (∀ p content : String,
      (Baptist.updateImportsInFile p content).2 = false →
        (Baptist.updateImportsInFile p content).1 = content) := by
  obtain ⟨hfs, hupd⟩ :=
    Baptist.processFiles_spec (roots.flatMap fun r => Baptist.walkEntries r.2 r.1)
  exact ⟨hupd, hfs, Baptist.updateImportsInFile_flag,
    Baptist.updateImportsInFile_untouched⟩

/-- Witness for C7 on a concrete tree: `src/a.ts` (relative specifier that
changes) is rewritten and reported, `src/b.ts` (package specifier) is
untouched, a `node_modules` subtree is never visited. -/
theorem c7_rewriter_frame_witness :
    (Baptist.updateImportsInFiles
        [("src",
          [.file "a.ts" "import x from './FooBar'",
           .file "b.ts" "import y from 'react'",
           .dir "node_modules" [.file "c.ts" "import z from './Zed'"]])]).2 =
      ["src/a.ts"] ∧
    (Baptist.updateImportsInFile "src/b.ts" "import y from 'react'").1 =
      "import y from 'react'" ∧
    (Baptist.updateImportsInFile "src/a.ts" "import x from './FooBar'").2 =
      true := by
  refine ⟨?_, ?_, ?_⟩
  · rw [(c7_rewriter_frame
      [("src",
        [.file "a.ts" "import x from './FooBar'",
         .file "b.ts" "import y from 'react'",
         .dir "node_modules" [.file "c.ts" "import z from './Zed'"]])]).1]
    decide
  · exact (c7_rewriter_frame []).2.2.2 "src/b.ts" "import y from 'react'"
      (by decide)
  · exact ((c7_rewriter_frame []).2.2.1 "src/a.ts"
      "import x from './FooBar'").mpr (by decide)
